import Mathlib

/-!
# Topic segmentation and scoring — verification development

Shallow embedding of the chat-log topic-segmentation and scoring heuristics
of this repository, together with theorems about them.

Embedded source files:
* `AIhuang/Antigravity_001/skills/batch-chatlog-analyzer/batch_chatlog_analyzer.py`
  (class `TopicAnalyzer`) — namespace `Batch`;
* `AIhuang/wechatBatch/skills/chatlog_analyzer/analyzer.py`
  (class `ChatAnalyzer`) — namespace `Skills`;
* `AIhuang/wechatReport/real_chatlog_analyzer.py`
  (class `ChatlogAnalyzer`) — namespace `Report`.

Modelling conventions:
* A point in time is an integer number of seconds on the proleptic Gregorian
  calendar (epoch 0000-03-01); only differences and order of instants are ever
  used, so the choice of epoch is irrelevant.
* `datetime.fromisoformat` (a Python standard-library collaborator of the
  embedded code) is modelled on the timestamp shape the repository uses,
  `YYYY-MM-DDTHH:MM:SS`; any other string is a parse failure, which in Python
  raises `ValueError` and is modelled here by `Option.none`.
* Python `float` arithmetic on scores is modelled exactly over `ℚ`.
* Python's stable `sorted` / `list.sort` is modelled by `List.mergeSort`,
  which is stable.
-/

/-- Leap year of the proleptic Gregorian calendar. -/
def isLeapYear (y : ℕ) : Bool :=
  (y % 4 == 0 && y % 100 != 0) || y % 400 == 0

/-- Number of days of month `m` (1–12) in year `y`. -/
def daysInMonth (y m : ℕ) : ℕ :=
  if m = 2 then (if isLeapYear y then 29 else 28)
  else if m = 4 ∨ m = 6 ∨ m = 9 ∨ m = 11 then 30
  else 31

/-- Day count of a civil date (proleptic Gregorian, era-based computation).
Valid for years ≥ 1, which is exactly `datetime`'s `MINYEAR`. -/
def daysFromCivil (y m d : ℕ) : ℕ :=
  let y' := if m ≤ 2 then y - 1 else y
  let era := y' / 400
  let yoe := y' % 400
  let mp := if 2 < m then m - 3 else m + 9
  let doy := (153 * mp + 2) / 5 + (d - 1)
  let doe := yoe * 365 + yoe / 4 - yoe / 100 + doy
  era * 146097 + doe

/-- Decimal value of a digit character. -/
def digitVal (c : Char) : ℕ := c.toNat - 48

/-- Seconds of the instant `YYYY-MM-DD⟨sep⟩HH:MM:SS` described by `cs`, if the
field values form a valid `datetime` (year ≥ 1, real month lengths, leap years
respected), else `none` — the model of `datetime.fromisoformat`-style parsing. -/
def isoSeconds (sep : Char) (cs : List Char) : Option ℤ :=
  match cs with
  | [y1, y2, y3, y4, '-', m1, m2, '-', d1, d2, t, h1, h2, ':', n1, n2, ':', s1, s2] =>
    if t = sep ∧ [y1, y2, y3, y4, m1, m2, d1, d2, h1, h2, n1, n2, s1, s2].all Char.isDigit then
      let y := digitVal y1 * 1000 + digitVal y2 * 100 + digitVal y3 * 10 + digitVal y4
      let mo := digitVal m1 * 10 + digitVal m2
      let dy := digitVal d1 * 10 + digitVal d2
      let h := digitVal h1 * 10 + digitVal h2
      let mi := digitVal n1 * 10 + digitVal n2
      let s := digitVal s1 * 10 + digitVal s2
      if 1 ≤ y ∧ 1 ≤ mo ∧ mo ≤ 12 ∧ 1 ≤ dy ∧ dy ≤ daysInMonth y mo ∧
          h ≤ 23 ∧ mi ≤ 59 ∧ s ≤ 59 then
        some ((daysFromCivil y mo dy * 86400 + h * 3600 + mi * 60 + s : ℕ) : ℤ)
      else none
    else none
  | _ => none

/-- `datetime.fromisoformat` on the repository's timestamp shape. -/
def fromisoformat (s : String) : Option ℤ := isoSeconds 'T' s.data

/-- `datetime.strptime(s, "%Y-%m-%d %H:%M:%S")`. -/
def parseSpaceFormat (s : String) : Option ℤ := isoSeconds ' ' s.data

/-- `datetime.strptime(s, "%H:%M:%S")`; `strptime` defaults the date
to 1900-01-01. -/
def parseHMS (s : String) : Option ℤ :=
  match s.data with
  | [h1, h2, ':', n1, n2, ':', s1, s2] =>
    if [h1, h2, n1, n2, s1, s2].all Char.isDigit then
      let h := digitVal h1 * 10 + digitVal h2
      let mi := digitVal n1 * 10 + digitVal n2
      let s := digitVal s1 * 10 + digitVal s2
      if h ≤ 23 ∧ mi ≤ 59 ∧ s ≤ 59 then
        some ((daysFromCivil 1900 1 1 * 86400 + h * 3600 + mi * 60 + s : ℕ) : ℤ)
      else none
    else none
  | _ => none

/-- A normalized chat message (the `Message` data model: the dict shape
`{'timestamp': …, 'sender': …, 'content': …}` used by the analyzers). -/
structure Msg where
  timestamp : String
  sender : String
  content : String
deriving DecidableEq

namespace Batch

/-- A message's parse result is available (`datetime.fromisoformat` succeeds). -/
def parseable (m : Msg) : Bool := (fromisoformat m.timestamp).isSome

/-- Time of a message whose timestamp parses (default is irrelevant: it is
only applied to messages already known to be parseable). -/
def pt (m : Msg) : ℤ := (fromisoformat m.timestamp).getD 0

/-- Loop body of `TopicAnalyzer._group_by_session_windows` in its steady
state: `cur` is the (nonempty) current session and `last` the time of the
most recent successfully parsed message.  A message whose timestamp fails to
parse is skipped (`except ValueError: continue`) without touching `last`;
otherwise the gap `t - last` is compared with `timedelta(minutes=W)`. -/
def segGo (W : ℤ) (cur : List Msg) (last : ℤ) : List Msg → List (List Msg)
  | [] => [cur]
  | m :: rest =>
    match fromisoformat m.timestamp with
    | none => segGo W cur last rest
    | some t =>
      if 60 * W < t - last then cur :: segGo W [m] t rest
      else segGo W (cur ++ [m]) t rest

/-- `TopicAnalyzer._group_by_session_windows`: scan the messages in input
order (the method does not sort), starting the first session at the first
parseable message (`last_time is None` branch).  The source fixes
`W = TIME_WINDOW_MINUTES = 30`; the window is a parameter here. -/
def groupBySessionWindows (W : ℤ) : List Msg → List (List Msg)
  | [] => []
  | m :: rest =>
    match fromisoformat m.timestamp with
    | none => groupBySessionWindows W rest
    | some t => segGo W [m] t rest

/-- Adjacent-message gap bound: the later message follows the earlier one by
at most `W` minutes. -/
def withinW (W : ℤ) (a b : Msg) : Prop := pt b - pt a ≤ 60 * W

/-- Session-boundary gap: the first message of the later session follows the
last message of the earlier session by strictly more than `W` minutes. -/
def boundary (W : ℤ) (g1 g2 : List Msg) : Prop :=
  ∀ a ∈ g1.getLast?, ∀ b ∈ g2.head?, 60 * W < pt b - pt a

/-- `str.strip()` — remove leading and trailing whitespace. -/
def strip (cs : List Char) : List Char :=
  ((cs.dropWhile Char.isWhitespace).reverse.dropWhile Char.isWhitespace).reverse

/-- CJK ideograph, the `[一-鿿]` character class of the source. -/
def isCJK (c : Char) : Bool := 0x4e00 ≤ c.toNat && c.toNat ≤ 0x9fff

/-- Python `\w` (Unicode word character), restricted to the scripts the
repository handles: alphanumerics, underscore and CJK ideographs. -/
def isWordChar (c : Char) : Bool := c.isAlphanum || c = '_' || isCJK c

/-- `^\[.*\]$` — bracket-only content such as `[微笑]`; `.` cannot cross a
newline. -/
def emojiOnly : List Char → Bool
  | '[' :: rest =>
    !rest.isEmpty && (rest.getLast? == some ']') && !(rest.dropLast.contains '\n')
  | _ => false

/-- `^@\w+\s*$` — an @-mention and nothing else. -/
def mentionOnly : List Char → Bool
  | '@' :: rest =>
    !(rest.takeWhile isWordChar).isEmpty &&
      (rest.dropWhile isWordChar).all Char.isWhitespace
  | _ => false

/-- `^[？?!！]+$` — punctuation-only content. -/
def punctOnly (cs : List Char) : Bool :=
  !cs.isEmpty && cs.all (['？', '?', '!', '！'].contains ·)

/-- `^\d+$` — digits-only content. -/
def digitsOnly (cs : List Char) : Bool := !cs.isEmpty && cs.all Char.isDigit

/-- One-character acknowledgement tokens of the noise regex
`^(嗯|哦|啊|呵呵|哈哈|好的|ok|OK|收到|谢谢|感谢)+$`. -/
def ackSingles : List Char := ['嗯', '哦', '啊']

/-- Two-character acknowledgement tokens of the same regex. -/
def ackPairs : List (Char × Char) :=
  [('呵', '呵'), ('哈', '哈'), ('好', '的'), ('o', 'k'), ('O', 'K'),
   ('收', '到'), ('谢', '谢'), ('感', '谢')]

/-- Zero-or-more repetitions of acknowledgement tokens. -/
def ackStar : List Char → Bool
  | [] => true
  | c :: rest =>
    (ackSingles.contains c && ackStar rest) ||
      (match rest with
       | c2 :: rest2 => ackPairs.contains (c, c2) && ackStar rest2
       | [] => false)

/-- `^(嗯|哦|…)+$` — one or more acknowledgement tokens and nothing else. -/
def ackOnly (cs : List Char) : Bool := !cs.isEmpty && ackStar cs

/-- `TopicAnalyzer._is_noise`: the content (stripped, as in the source's
`re.match(pattern, content.strip())`) matches one of the five noise
patterns. -/
def isNoise (cs : List Char) : Bool :=
  let s := strip cs
  emojiOnly s || mentionOnly s || punctOnly s || digitsOnly s || ackOnly s

/-- Position of the first `]` reachable without crossing a newline —
the completion of a non-greedy `\[.*?\]` match. -/
def findCloseBr : List Char → Option ℕ
  | [] => none
  | ']' :: _ => some 0
  | '\n' :: _ => none
  | _ :: rest => (findCloseBr rest).map (· + 1)

/-- Fuel-driven body of `removeBrackets`; each step consumes at least one
character, so fuel = input length always suffices (structural recursion on
the fuel keeps the function kernel-computable). -/
def removeBracketsF : ℕ → List Char → List Char
  | _, [] => []
  | 0, s => s
  | fuel + 1, '[' :: rest =>
    match findCloseBr rest with
    | some k => removeBracketsF fuel (rest.drop (k + 1))
    | none => '[' :: removeBracketsF fuel rest
  | fuel + 1, c :: rest => c :: removeBracketsF fuel rest

/-- `re.sub(r'\[.*?\]', '', s)` — delete bracketed emoji markers
(leftmost, shortest matches). -/
def removeBrackets (s : List Char) : List Char := removeBracketsF s.length s

/-- Fuel-driven body of `removeMentions` (fuel = input length suffices). -/
def removeMentionsF : ℕ → List Char → List Char
  | _, [] => []
  | 0, s => s
  | fuel + 1, '@' :: rest =>
    let run := rest.takeWhile isWordChar
    if run.isEmpty then '@' :: removeMentionsF fuel rest
    else removeMentionsF fuel (rest.drop run.length)
  | fuel + 1, c :: rest => c :: removeMentionsF fuel rest

/-- `re.sub(r'@\w+', '', s)` — delete @-mention markers. -/
def removeMentions (s : List Char) : List Char := removeMentionsF s.length s

/-- Sentence separators of `re.split(r'[。！？\n，；：]', content)`. -/
def isSentenceSep (c : Char) : Bool :=
  ['。', '！', '？', '\n', '，', '；', '：'].contains c

/-- `re.split` on the sentence separators (consecutive separators yield
empty pieces, as in Python). -/
def splitOnSeps : List Char → List (List Char)
  | [] => [[]]
  | c :: rest =>
    if isSentenceSep c then [] :: splitOnSeps rest
    else
      match splitOnSeps rest with
      | [] => [[c]]
      | p :: ps => (c :: p) :: ps

/-- Word-boundary characters preferred when truncating a long title. -/
def cutChars : List Char := [' ', '，', '。', '！', '？', '、']

/-- The index scanned by
`for i in range(len(t)-1, max(20, len(t)-10), -1): if t[i] in ' ，。！？、'`. -/
def findCut (t : List Char) : Option ℕ :=
  let b := max 20 (t.length - 10)
  (((List.range t.length).filter (fun i => b < i)).reverse).find?
    (fun i => match t[i]? with
              | some c => cutChars.contains c
              | none => false)

/-- `TopicAnalyzer._extract_title_from_content`. -/
def extractTitleFromContent (content : List Char) : List Char :=
  let c := strip (removeMentions (removeBrackets content))
  let sentences := (splitOnSeps c).map strip
  match sentences.find? (fun s => 8 ≤ s.length && s.length ≤ 40) with
  | some s => s
  | none =>
    if 40 < c.length then
      let t := c.take 40
      match findCut t with
      | some i => strip (t.take i) ++ "...".data
      | none => t ++ "...".data
    else if c.isEmpty then "群聊讨论".data else c

/-- The title candidates of `TopicAnalyzer._generate_title`: stripped
contents of length > 15 that are not noise. -/
def titleSubstantial (msgs : List Msg) : List (List Char) :=
  msgs.filterMap (fun m =>
    let c := strip m.content.data
    if 15 < c.length && !isNoise c then some c else none)

/-- The `best_msg` selection loop of `_generate_title`: among the first five
substantial contents, the first one at index < 3 longer than 0.7 of the
first candidate's length (`len(msg) > len(best_msg) * 0.7`, stated over ℚ as
`7·len(best) < 10·len(msg)`); else the first candidate. -/
def pickBest : List (List Char) → List Char
  | [] => []
  | subs@(b0 :: _) =>
    match (subs.take 5).enum.find?
        (fun p => 7 * b0.length < 10 * p.2.length && p.1 < 3) with
    | some p => p.2
    | none => b0

/-- `TopicAnalyzer._generate_title`. -/
def generateTitle (msgs : List Msg) : List Char :=
  match titleSubstantial msgs with
  | [] =>
    match (msgs.filterMap (fun m =>
        let c := strip m.content.data
        if 5 < c.length then some c else none)).head? with
    | some c => extractTitleFromContent c
    | none => "群聊讨论".data
  | subs@(_ :: _) => extractTitleFromContent (pickBest subs)

/-- An entry of the `substantial` list built by `_generate_summary`:
the dict `{'content': …, 'sender': …, 'length': …}`. -/
structure SubEntry where
  content : List Char
  sender : String
  length : ℕ
deriving DecidableEq

/-- The summary candidates of `TopicAnalyzer._generate_summary`: stripped
contents of length > 10 that are not noise. -/
def summarySubstantial (msgs : List Msg) : List SubEntry :=
  msgs.filterMap (fun m =>
    let c := strip m.content.data
    if 10 < c.length && !isNoise c then some ⟨c, m.sender, c.length⟩ else none)

/-- The index selection of `_generate_summary` for more than three
candidates: first, middle, last, plus up to two longest not already chosen;
then `sorted(set(indices))[:4]`. -/
def summarySelect (sub : List SubEntry) : List SubEntry :=
  let n := sub.length
  if n ≤ 3 then sub
  else
    let lenAt : ℕ → ℕ := fun i => ((sub[i]?).map (·.length)).getD 0
    let base := [0, n / 2, n - 1]
    let byLen := (List.range n).insertionSort (fun i j => lenAt j ≤ lenAt i)
    let indices1 := (byLen.take 2).foldl
      (fun acc i => if acc.contains i then acc else acc ++ [i]) base
    let indices := ((indices1.dedup).insertionSort (fun a b => a ≤ b)).take 4
    indices.filterMap (fun i => sub[i]?)

/-- Join pieces with a separator string (`"sep".join(parts)`). -/
def joinSep (sep : List Char) : List (List Char) → List Char
  | [] => []
  | [x] => x
  | x :: xs => x ++ sep ++ joinSep sep xs

/-- `TopicAnalyzer._generate_summary`. -/
def generateSummary (msgs : List Msg) : List Char :=
  let sub := summarySubstantial msgs
  if sub.isEmpty then "暂无详细摘要".data
  else
    let selected := summarySelect sub
    let parts := selected.filterMap (fun e =>
      let c := strip (removeBrackets e.content)
      let c2 := if 60 < c.length then c.take 60 ++ "...".data else c
      if c2.isEmpty then none else some c2)
    if parts.isEmpty then "暂无详细摘要".data else joinSep " | ".data parts

/-- Chinese stop words of `TopicAnalyzer._extract_keywords`. -/
def stopWords : List (List Char) :=
  (["的", "了", "是", "在", "我", "有", "和", "就", "不", "人", "都", "一", "一个",
    "上", "也", "很", "到", "说", "要", "去", "你", "会", "着", "没有", "看", "好",
    "自己", "这", "那", "他", "她", "它", "们", "什么", "怎么", "可以", "这个", "那个",
    "吗", "呢", "啊", "吧", "哦", "嗯", "哈", "呵", "嘻", "哼", "唉", "喂",
    "如果", "因为", "所以", "但是", "而且", "或者", "还是", "虽然", "不过",
    "这样", "那样", "这么", "那么", "什么样", "怎么样"] : List String).map String.data

/-- Low-information English words filtered by `_extract_keywords`. -/
def englishStop : List (List Char) :=
  (["the", "and", "for", "are", "but", "not", "you", "all"] : List String).map
    String.data

/-- Fuel-driven body of `cjkScan` (fuel = input length suffices). -/
def cjkScanF : ℕ → List Char → List (List Char)
  | _, [] => []
  | 0, _ => []
  | fuel + 1, c :: rest =>
    if isCJK c then
      let tok := (c :: rest.takeWhile isCJK).take 6
      if 2 ≤ tok.length then tok :: cjkScanF fuel (rest.drop (tok.length - 1))
      else cjkScanF fuel rest
    else cjkScanF fuel rest

/-- `re.findall(r'[一-鿿]{2,6}', text)`: greedy non-overlapping
matches — up to six ideographs at a time, a leftover of one unmatched. -/
def cjkScan (s : List Char) : List (List Char) := cjkScanF s.length s

/-- Fuel-driven body of `latinScan` (fuel = input length suffices). -/
def latinScanF : ℕ → List Char → List (List Char)
  | _, [] => []
  | 0, _ => []
  | fuel + 1, c :: rest =>
    if c.isAlpha then
      let run := c :: rest.takeWhile Char.isAlpha
      let af := rest.dropWhile Char.isAlpha
      if 3 ≤ run.length then run :: latinScanF fuel af else latinScanF fuel af
    else latinScanF fuel rest

/-- `re.findall(r'[a-zA-Z]{3,}', text)`: maximal alphabetic runs of length
at least three (a shorter run yields no match at any of its positions). -/
def latinScan (s : List Char) : List (List Char) := latinScanF s.length s

/-- Unit characters of the `\d+[年月日万亿%]+` pattern. -/
def isNumUnit (c : Char) : Bool := ['年', '月', '日', '万', '亿', '%'].contains c

/-- Fuel-driven body of `numScan` (fuel = input length suffices). -/
def numScanF : ℕ → List Char → List (List Char)
  | _, [] => []
  | 0, _ => []
  | fuel + 1, c :: rest =>
    if c.isDigit then
      let ds := c :: rest.takeWhile Char.isDigit
      let af := rest.dropWhile Char.isDigit
      let us := af.takeWhile isNumUnit
      if us.isEmpty then numScanF fuel rest
      else (ds ++ us) :: numScanF fuel (af.drop us.length)
    else numScanF fuel rest

/-- `re.findall(r'\d+[年月日万亿%]+', text)`: a digit run followed by at
least one unit character (digit runs with no trailing unit yield nothing). -/
def numScan (s : List Char) : List (List Char) := numScanF s.length s

/-- The keyword-candidate occurrences of `_extract_keywords`, in the order
the source counts them: CJK tokens (stop words removed), then English words
(generic words removed, original case kept), then number+unit patterns. -/
def kwOccurrences (msgs : List Msg) : List (List Char) :=
  let allText := joinSep [' '] (msgs.map (·.content.data))
  (cjkScan allText).filter (fun w => !stopWords.contains w && 2 ≤ w.length)
    ++ (latinScan allText).filter
        (fun w => !englishStop.contains (w.map Char.toLower))
    ++ numScan allText

/-- Frequency count preserving first-insertion order
(`defaultdict(int)` iteration order). -/
def countOcc (occ : List (List Char)) : List (List Char × ℕ) :=
  occ.foldl (fun acc w =>
    if acc.any (fun p => p.1 == w) then
      acc.map (fun p => if p.1 == w then (p.1, p.2 + 1) else p)
    else acc ++ [(w, 1)]) []

/-- Candidate score `min(len(word)/4, 1.5) * min(freq/3, 2.0)`. -/
def kwScore (w : List Char) (freq : ℕ) : ℚ :=
  min ((w.length : ℚ) / 4) (3 / 2) * min ((freq : ℚ) / 3) 2

/-- The scored candidate list: only words of frequency ≥ 2 are kept. -/
def kwScored (msgs : List Msg) : List (List Char × ℚ × ℕ) :=
  (countOcc (kwOccurrences msgs)).filterMap
    (fun p => if 2 ≤ p.2 then some (p.1, kwScore p.1 p.2, p.2) else none)

/-- `scored.sort(key=lambda x: x[1], reverse=True)` — stable descending. -/
def kwSorted (msgs : List Msg) : List (List Char × ℚ × ℕ) :=
  (kwScored msgs).insertionSort (fun a b => b.2.1 ≤ a.2.1)

/-- `xs` occurs as a contiguous substring of `ys` (Python `xs in ys`). -/
def substrOf (xs ys : List Char) : Bool :=
  ys.tails.any (fun t => xs.isPrefixOf t)

/-- The top-5 selection loop of `_extract_keywords`: walk the sorted
candidates, skip any word that contains or is contained in an already kept
word, stop as soon as five are kept.  (The source's `seen` set always holds
exactly the kept words, so the check is made against `kept`.) -/
def dedupTop5 : List (List Char) → List (List Char × ℚ × ℕ) → List (List Char)
  | kept, [] => kept
  | kept, (w, _, _) :: rest =>
    let dup := kept.any (fun e => substrOf w e || substrOf e w)
    let kept2 := if dup then kept else kept ++ [w]
    if 5 ≤ kept2.length then kept2 else dedupTop5 kept2 rest

/-- `TopicAnalyzer._extract_keywords`. -/
def extractKeywords (msgs : List Msg) : List (List Char) :=
  let ks := dedupTop5 [] (kwSorted msgs)
  if ks.isEmpty then (["讨论", "交流", "分享"] : List String).map String.data
  else ks

/-- `sum(len(msg.get('content', '')) for msg in messages)`. -/
def totalLength (msgs : List Msg) : ℕ := (msgs.map (·.content.data.length)).sum

/-- `len(set(msg.get('sender', 'Unknown') for msg in messages))`. -/
def participantCount (msgs : List Msg) : ℕ := (msgs.map (·.sender)).dedup.length

/-- `diversity_bonus = 1.5 if participant_count > 2 else 1.0`. -/
def diversityBonus (pc : ℕ) : ℚ := if 2 < pc then 3 / 2 else 1

/-- The score of `_extract_topic`:
`((msg_count * 0.4) + (total_length * 0.1) + (participant_count * 5.0)) *
diversity_bonus`, the float literals modelled as exact rationals. -/
def topicScore (msgs : List Msg) : ℚ :=
  ((msgs.length : ℚ) * (2 / 5) + (totalLength msgs : ℚ) * (1 / 10) +
      (participantCount msgs : ℚ) * 5) * diversityBonus (participantCount msgs)

/-- Two-digit decimal rendering. -/
def pad2 (n : ℕ) : List Char :=
  if n < 10 then '0' :: Nat.toDigits 10 n else Nat.toDigits 10 n

/-- `datetime.strftime("%H:%M")` on an instant of our time model. -/
def formatHM (t : ℤ) : List Char :=
  pad2 (t.toNat / 3600 % 24) ++ ':' :: pad2 (t.toNat % 3600 / 60)

/-- The `Topic` record returned by `TopicAnalyzer._extract_topic`. -/
structure Topic where
  title : List Char
  summary : List Char
  keywords : List (List Char)
  timestamp : List Char
  message_count : ℕ
  participant_count : ℕ
  score : ℚ
deriving DecidableEq

/-- `TopicAnalyzer._extract_topic`: `None` on an empty session, otherwise a
`Topic` for the session — the method applies no minimum-message threshold. -/
def extractTopic : List Msg → Option Topic
  | [] => none
  | m :: rest =>
    let msgs := m :: rest
    some
      { title := generateTitle msgs
        summary := generateSummary msgs
        keywords := extractKeywords msgs
        timestamp :=
          match fromisoformat m.timestamp with
          | some t => formatHM t
          | none => "Unknown".data
        message_count := msgs.length
        participant_count := participantCount msgs
        score := topicScore msgs }

/-- `TopicAnalyzer.analyze`: segment, extract a topic per session, rank by
score (stable descending), return the top `max(5, min(20, total // 50))`. -/
def analyze (msgs : List Msg) : List Topic :=
  let sessions := groupBySessionWindows 30 msgs
  let topics := sessions.filterMap extractTopic
  let ranked := topics.insertionSort (fun a b => b.score ≤ a.score)
  ranked.take (max 5 (min 20 (msgs.length / 50)))

end Batch

/-- A raw message dict as consumed by `ChatAnalyzer` (`analyzer.py`): the
time field may be absent.  The source probes the field names `timestamp`,
`time`, `created_at`, `date`; the model keys on the single `timestamp`
field, `none` standing for "no time field present". -/
structure MsgB where
  timestamp : Option String
  user : String
  content : String
deriving DecidableEq

namespace Skills

/-- The parse chain of `ChatAnalyzer._get_message_time` for a string value:
`datetime.fromisoformat`, then the `strptime` formats
`%Y-%m-%d %H:%M:%S`, `%Y-%m-%dT%H:%M:%S` (subsumed by the first try) and
`%H:%M:%S`. -/
def parseChain (s : String) : Option ℤ :=
  (fromisoformat s).orElse fun _ =>
    (parseSpaceFormat s).orElse fun _ => parseHMS s

/-- `ChatAnalyzer._get_message_time`, with the wall clock explicit: the
source falls back to `datetime.now()` when no time field parses, modelled by
the `now` parameter. -/
def getMessageTime (now : ℤ) (m : MsgB) : ℤ :=
  match m.timestamp with
  | some s => (parseChain s).getD now
  | none => now

/-- The message's time field resolves without the wall-clock fallback. -/
def resolvable (m : MsgB) : Bool :=
  match m.timestamp with
  | some s => (parseChain s).isSome
  | none => false

/-- `sorted(messages, key=lambda m: self._get_message_time(m))` —
decorate–sort–undecorate, exactly as Python's `key=` evaluates the key once
per element. -/
def sortedByTime (now : ℤ) (msgs : List MsgB) : List (ℤ × MsgB) :=
  (msgs.map (fun m => (getMessageTime now m, m))).insertionSort
    (fun a b => a.1 ≤ b.1)

/-- Grouping loop of `ChatAnalyzer.group_messages_by_time`.  The source does
**not** update `last_time` when a message joins the current group, so the
gap is measured from the group's first message.  With the clock frozen at
`now`, re-computing a message's time inside the loop returns its
precomputed sort key, so the key is reused.  The source compares
`(msg_time - last_time).total_seconds() / 60 <= interval_minutes`; over
exact integer seconds this is equivalent to `t - last ≤ 60 * interval`. -/
def groupGo (interval : ℤ) (cur : List MsgB) (last : ℤ) :
    List (ℤ × MsgB) → List (List MsgB)
  | [] => [cur]
  | (t, m) :: rest =>
    if t - last ≤ 60 * interval then
      groupGo interval (cur ++ [m]) last rest
    else cur :: groupGo interval [m] t rest

/-- `ChatAnalyzer.group_messages_by_time(messages, interval_minutes=30)`. -/
def group_messages_by_time (now interval : ℤ) (msgs : List MsgB) :
    List (List MsgB) :=
  match sortedByTime now msgs with
  | [] => []
  | (t, m) :: rest => groupGo interval [m] t rest

end Skills

/-- Code-point lexicographic strict comparison of character lists — the
Python string `<`. -/
def lexLt : List Char → List Char → Bool
  | [], [] => false
  | [], _ :: _ => true
  | _ :: _, [] => false
  | a :: as, b :: bs => if a < b then true else if b < a then false else lexLt as bs

/-- Python string `<=`, as used by `sorted` on raw timestamp strings. -/
def strLe (a b : String) : Bool := !lexLt b.data a.data

namespace Report

/-- `timestamp.replace('Z', '+00:00')`. -/
def replaceZ (s : String) : String :=
  String.mk (s.data.foldr
    (fun c acc =>
      if c = 'Z' then '+' :: '0' :: '0' :: ':' :: '0' :: '0' :: acc
      else c :: acc) [])

/-- The timestamp parse of `ChatlogAnalyzer.group_messages_by_time`.
(An offset-bearing result of the `replace` would compare aware with naive
in Python and also raise, landing in the same `except` branch as a parse
failure, so `none` models both.) -/
def parseR (s : String) : Option ℤ := fromisoformat (replaceZ s)

/-- Grouping loop of `ChatlogAnalyzer.group_messages_by_time`: the gap
between the current message and the **last message of the current group**
is compared with the 30-minute window (the source's
`(… ).total_seconds() / 60 <= self.time_window`, stated over integer
seconds as `t2 - t1 ≤ 60 * 30`); if either timestamp fails to parse, the
`except` branch appends the message to the current group. -/
def groupGo : List Msg → List Msg → List (List Msg)
  | cur, [] => [cur]
  | cur, m :: rest =>
    match cur.getLast? with
    | none => groupGo (cur ++ [m]) rest
    | some lastM =>
      match parseR lastM.timestamp, parseR m.timestamp with
      | some t1, some t2 =>
        if t2 - t1 ≤ 60 * 30 then groupGo (cur ++ [m]) rest
        else cur :: groupGo [m] rest
      | _, _ => groupGo (cur ++ [m]) rest

/-- `ChatlogAnalyzer.group_messages_by_time`: sort by the **raw timestamp
string** (`key=lambda x: x.get('timestamp', '')`, code-point
lexicographic), then scan. -/
def group_messages_by_time (msgs : List Msg) : List (List Msg) :=
  match msgs.insertionSort (fun a b => strLe a.timestamp b.timestamp = true) with
  | [] => []
  | m :: rest => groupGo [m] rest

end Report

/-- Concrete messages and inputs used to instantiate the theorems. -/
def mSolo : Msg := ⟨"2025-03-01T09:00:00", "alice", "hello world message"⟩

def mSmile : Msg := ⟨"2025-03-01T09:01:00", "bob", "[smile]"⟩

def mGoodR : Msg := ⟨"2025-01-01T10:00:00", "alice", "hello"⟩

def mBadR : Msg := ⟨"garbage", "bob", "hi"⟩

def ooA : Msg := ⟨"2025-03-01T10:00:00", "a", "x"⟩

def ooB : Msg := ⟨"2025-03-01T09:00:00", "b", "y"⟩

def wA : Msg := ⟨"2025-03-01T09:00:00", "a", ""⟩

def wB : Msg := ⟨"2025-03-01T09:10:00", "b", ""⟩

def kwScen : List Msg :=
  [⟨"2025-01-01T10:00:00", "a", "项目 项目 项目 项目 项目 项目管理 项目管理 项目管理"⟩]

def sk1 : MsgB := ⟨some "2025-01-01T10:00:00", "u1", "a"⟩

def sk2 : MsgB := ⟨some "2025-01-01T10:25:00", "u2", "b"⟩

def sk3 : MsgB := ⟨some "2025-01-01T10:50:00", "u3", "c"⟩

def skU : MsgB := ⟨none, "u0", "z"⟩

def skP : MsgB := ⟨some "2025-01-01T10:00:00", "p", "y"⟩

def mBad600 : Msg := ⟨"x", "s", ""⟩

def goods12 : List Msg :=
  [⟨"2025-01-01T00:00:00", "s", ""⟩, ⟨"2025-01-01T01:00:00", "s", ""⟩,
   ⟨"2025-01-01T02:00:00", "s", ""⟩, ⟨"2025-01-01T03:00:00", "s", ""⟩,
   ⟨"2025-01-01T04:00:00", "s", ""⟩, ⟨"2025-01-01T05:00:00", "s", ""⟩,
   ⟨"2025-01-01T06:00:00", "s", ""⟩, ⟨"2025-01-01T07:00:00", "s", ""⟩,
   ⟨"2025-01-01T08:00:00", "s", ""⟩, ⟨"2025-01-01T09:00:00", "s", ""⟩,
   ⟨"2025-01-01T10:00:00", "s", ""⟩, ⟨"2025-01-01T11:00:00", "s", ""⟩]

def msgs600 : List Msg := List.replicate 588 mBad600 ++ goods12

def mEmptyC4 : Msg := ⟨"", "a", ""⟩

namespace Batch

/-- The score shape asserted by the specification for a session: capped
message-count, total-length and participant terms with tunable positive
constants, multiplied by a 1.5 bonus exactly when the participant count
exceeds 2.  This definition follows the claim's words (it is the statement
under test), not the source. -/
def cappedScoreClaim (d1 cA wA d2 cB wB d3 cC wC : ℚ) (count len pc : ℕ) : ℚ :=
  (min ((count : ℚ) / d1) cA * wA + min ((len : ℚ) / d2) cB * wB +
      min ((pc : ℚ) / d3) cC * wC) * (if 2 < pc then 3 / 2 else 1)

/-- Mutual non-containment of two keyword strings. -/
def noContain (a b : List Char) : Prop :=
  substrOf a b = false ∧ substrOf b a = false

end Batch

namespace Batch

theorem segGo_join (W : ℤ) (rest : List Msg) :
    ∀ cur last, (segGo W cur last rest).flatten = cur ++ rest.filter parseable := by
  induction rest with
  | nil => intro cur last; simp [segGo]
  | cons m rest ih =>
    intro cur last
    by_cases h : (fromisoformat m.timestamp).isSome
    · obtain ⟨t, ht⟩ := Option.isSome_iff_exists.mp h
      by_cases hgap : 60 * W < t - last
      · simp [segGo, ht, hgap, ih, List.filter_cons, parseable]
      · simp [segGo, ht, hgap, ih, List.filter_cons, parseable]
    · rw [Option.not_isSome_iff_eq_none] at h
      simp [segGo, h, ih, List.filter_cons, parseable]

/-- Concatenating the sessions yields exactly the parseable messages in
input order. -/
theorem groupBySessionWindows_join (W : ℤ) (msgs : List Msg) :
    (groupBySessionWindows W msgs).flatten = msgs.filter parseable := by
  induction msgs with
  | nil => simp [groupBySessionWindows]
  | cons m rest ih =>
    by_cases h : (fromisoformat m.timestamp).isSome
    · obtain ⟨t, ht⟩ := Option.isSome_iff_exists.mp h
      simp [groupBySessionWindows, ht, segGo_join, List.filter_cons, parseable]
    · rw [Option.not_isSome_iff_eq_none] at h
      simp [groupBySessionWindows, h, ih, List.filter_cons, parseable]

theorem segGo_ne_nil (W : ℤ) (rest : List Msg) :
    ∀ cur last, cur ≠ [] → ∀ g ∈ segGo W cur last rest, g ≠ [] := by
  induction rest with
  | nil => intro cur last hcur g hg; simp [segGo] at hg; simpa [hg]
  | cons m rest ih =>
    intro cur last hcur g hg
    rcases h : fromisoformat m.timestamp with _ | t
    · rw [segGo, h] at hg; exact ih cur last hcur g hg
    · simp only [segGo, h] at hg
      by_cases hgap : 60 * W < t - last
      · rw [if_pos hgap] at hg
        rcases List.mem_cons.mp hg with rfl | hg'
        · exact hcur
        · exact ih [m] t (by simp) g hg'
      · rw [if_neg hgap] at hg
        exact ih (cur ++ [m]) t (by simp) g hg

theorem segGo_head (W : ℤ) (rest : List Msg) :
    ∀ cur last, cur ≠ [] →
      ∃ g gs, segGo W cur last rest = g :: gs ∧ g.head? = cur.head? := by
  induction rest with
  | nil => intro cur last _; exact ⟨cur, [], by simp [segGo], rfl⟩
  | cons m rest ih =>
    intro cur last hcur
    rcases h : fromisoformat m.timestamp with _ | t
    · simpa [segGo, h] using ih cur last hcur
    · by_cases hgap : 60 * W < t - last
      · exact ⟨cur, segGo W [m] t rest, by simp [segGo, h, hgap], rfl⟩
      · obtain ⟨g, gs, heq, hhead⟩ := ih (cur ++ [m]) t (by simp)
        refine ⟨g, gs, by simp [segGo, h, hgap, heq], ?_⟩
        rw [hhead]
        cases cur with
        | nil => exact absurd rfl hcur
        | cons c cs => simp

theorem segGo_chain (W : ℤ) (rest : List Msg) :
    ∀ cur last lm, cur.getLast? = some lm →
      fromisoformat lm.timestamp = some last →
      List.Chain' (withinW W) cur →
      (∀ g ∈ segGo W cur last rest, List.Chain' (withinW W) g) ∧
      List.Chain' (boundary W) (segGo W cur last rest) := by
  induction rest with
  | nil =>
    intro cur last lm _ _ hchain
    refine ⟨fun g hg => ?_, by simp [segGo]⟩
    simp only [segGo, List.mem_singleton] at hg
    simpa [hg]
  | cons m rest ih =>
    intro cur last lm hlast hparse hchain
    rcases h : fromisoformat m.timestamp with _ | t
    · rw [segGo, h]; exact ih cur last lm hlast hparse hchain
    · by_cases hgap : 60 * W < t - last
      · have hrec := ih [m] t m (by simp) h (by simp)
        simp only [segGo, h]
        rw [if_pos hgap]
        constructor
        · intro g hg
          rcases List.mem_cons.mp hg with rfl | hg'
          · exact hchain
          · exact hrec.1 g hg'
        · rw [List.chain'_cons']
          refine ⟨?_, hrec.2⟩
          obtain ⟨g, gs, heq, hhead⟩ := segGo_head W rest [m] t (by simp)
          intro g' hg' a ha b hb
          rw [heq] at hg'
          simp only [List.head?_cons, Option.mem_def, Option.some.injEq] at hg'
          subst hg'
          rw [hlast] at ha
          rw [hhead] at hb
          simp only [List.head?_cons, Option.mem_def, Option.some.injEq] at ha hb
          subst ha; subst hb
          simpa [pt, hparse, h] using hgap
      · have hconcat : (cur ++ [m]).getLast? = some m := by simp
        have hchain' : List.Chain' (withinW W) (cur ++ [m]) := by
          rw [List.chain'_append]
          refine ⟨hchain, by simp, fun x hx y hy => ?_⟩
          rw [hlast] at hx
          simp only [Option.mem_def, Option.some.injEq, List.head?_cons] at hx hy
          subst hx; subst hy
          simp only [withinW, pt, hparse, h, Option.getD_some]
          omega
        simp only [segGo, h]
        rw [if_neg hgap]
        exact ih (cur ++ [m]) t m hconcat h hchain'

theorem groupBySessionWindows_ne_nil (W : ℤ) (msgs : List Msg) :
    ∀ g ∈ groupBySessionWindows W msgs, g ≠ [] := by
  induction msgs with
  | nil => simp [groupBySessionWindows]
  | cons m rest ih =>
    intro g hg
    rcases h : fromisoformat m.timestamp with _ | t
    · rw [groupBySessionWindows, h] at hg; exact ih g hg
    · rw [groupBySessionWindows, h] at hg
      exact segGo_ne_nil W rest [m] t (by simp) g hg

theorem groupBySessionWindows_chain (W : ℤ) (msgs : List Msg) :
    (∀ g ∈ groupBySessionWindows W msgs, List.Chain' (withinW W) g) ∧
    List.Chain' (boundary W) (groupBySessionWindows W msgs) := by
  induction msgs with
  | nil => simp [groupBySessionWindows]
  | cons m rest ih =>
    rcases h : fromisoformat m.timestamp with _ | t
    · rw [groupBySessionWindows, h]; exact ih
    · rw [groupBySessionWindows, h]
      exact segGo_chain W rest [m] t m (by simp) h (by simp)

end Batch

namespace Skills

theorem getMessageTime_congr (now1 now2 : ℤ) (m : MsgB)
    (h : resolvable m) : getMessageTime now1 m = getMessageTime now2 m := by
  unfold resolvable at h
  unfold getMessageTime
  rcases hts : m.timestamp with _ | s
  · rw [hts] at h; exact absurd h (by simp)
  · rw [hts] at h
    obtain ⟨t, ht⟩ := Option.isSome_iff_exists.mp h
    simp [ht]

theorem group_messages_by_time_congr (now1 now2 interval : ℤ)
    (msgs : List MsgB) (h : ∀ m ∈ msgs, resolvable m) :
    group_messages_by_time now1 interval msgs =
      group_messages_by_time now2 interval msgs := by
  have hsort : sortedByTime now1 msgs = sortedByTime now2 msgs := by
    unfold sortedByTime
    congr 1
    exact List.map_congr_left fun m hm => by
      rw [getMessageTime_congr now1 now2 m (h m hm)]
  unfold group_messages_by_time
  rw [hsort]

theorem groupGo_ne_nil (interval : ℤ) (rest : List (ℤ × MsgB)) :
    ∀ cur last, cur ≠ [] → ∀ g ∈ groupGo interval cur last rest, g ≠ [] := by
  induction rest with
  | nil => intro cur last hcur g hg; simp [groupGo] at hg; simpa [hg]
  | cons p rest ih =>
    intro cur last hcur g hg
    obtain ⟨t, m⟩ := p
    rw [groupGo] at hg
    by_cases hle : t - last ≤ 60 * interval
    · rw [if_pos hle] at hg
      exact ih (cur ++ [m]) last (by simp) g hg
    · rw [if_neg hle] at hg
      rcases List.mem_cons.mp hg with rfl | hg'
      · exact hcur
      · exact ih [m] t (by simp) g hg'

theorem group_messages_by_time_ne_nil (now interval : ℤ) (msgs : List MsgB) :
    ∀ g ∈ group_messages_by_time now interval msgs, g ≠ [] := by
  intro g hg
  unfold group_messages_by_time at hg
  rcases hs : sortedByTime now msgs with _ | ⟨⟨t, m⟩, rest⟩
  · rw [hs] at hg; simp at hg
  · rw [hs] at hg
    exact groupGo_ne_nil interval rest [m] t (by simp) g hg

end Skills

namespace Report

theorem reportGroupGo_ne_nil (rest : List Msg) :
    ∀ cur, cur ≠ [] → ∀ g ∈ groupGo cur rest, g ≠ [] := by
  induction rest with
  | nil => intro cur hcur g hg; simp [groupGo] at hg; simpa [hg]
  | cons m rest ih =>
    intro cur hcur g hg
    rw [groupGo] at hg
    rcases hlast : cur.getLast? with _ | lastM
    · rw [hlast] at hg
      exact ih (cur ++ [m]) (by simp) g hg
    · rw [hlast] at hg
      rcases h1 : parseR lastM.timestamp with _ | t1 <;>
        rcases h2 : parseR m.timestamp with _ | t2 <;>
          simp only [h1, h2] at hg
      · exact ih (cur ++ [m]) (by simp) g hg
      · exact ih (cur ++ [m]) (by simp) g hg
      · exact ih (cur ++ [m]) (by simp) g hg
      · by_cases hle : t2 - t1 ≤ 60 * 30
        · rw [if_pos hle] at hg
          exact ih (cur ++ [m]) (by simp) g hg
        · rw [if_neg hle] at hg
          rcases List.mem_cons.mp hg with rfl | hg'
          · exact hcur
          · exact ih [m] (by simp) g hg'

theorem reportGrouping_ne_nil (msgs : List Msg) :
    ∀ g ∈ group_messages_by_time msgs, g ≠ [] := by
  intro g hg
  unfold group_messages_by_time at hg
  rcases hs : msgs.insertionSort (fun a b => strLe a.timestamp b.timestamp = true)
    with _ | ⟨m, rest⟩
  · rw [hs] at hg; simp at hg
  · rw [hs] at hg
    exact reportGroupGo_ne_nil rest [m] (by simp) g hg

end Report

namespace Batch

theorem extractTopic_isSome (g : List Msg) (hg : g ≠ []) :
    (extractTopic g).isSome := by
  cases g with
  | nil => exact absurd rfl hg
  | cons m rest => simp [extractTopic]

theorem length_filterMap_of_isSome {α β : Type} (f : α → Option β)
    (l : List α) (h : ∀ x ∈ l, (f x).isSome) :
    (l.filterMap f).length = l.length := by
  induction l with
  | nil => simp
  | cons x xs ih =>
    obtain ⟨y, hy⟩ := Option.isSome_iff_exists.mp (h x (by simp))
    simp [List.filterMap_cons, hy, ih fun a ha => h a (by simp [ha])]

theorem dedup_replicate_succ {α : Type} [DecidableEq α] (a : α) (n : ℕ) :
    (List.replicate (n + 1) a).dedup = [a] := by
  induction n with
  | zero => simp
  | succ k ih =>
    rw [List.replicate_succ, List.dedup_cons_of_mem (by simp)]
    exact ih

theorem dedupTop5_decomp (rest : List (List Char × ℚ × ℕ)) :
    ∀ kept, ∃ s, dedupTop5 kept rest = kept ++ s ∧
      s.Sublist (rest.map (·.1)) := by
  induction rest with
  | nil => intro kept; exact ⟨[], by simp [dedupTop5], by simp⟩
  | cons p rest ih =>
    intro kept
    obtain ⟨w, sc, f⟩ := p
    simp only [dedupTop5]
    by_cases hdup : kept.any (fun e => substrOf w e || substrOf e w)
    · rw [if_pos hdup]
      by_cases h5 : 5 ≤ kept.length
      · rw [if_pos h5]; exact ⟨[], by simp, by simp⟩
      · rw [if_neg h5]
        obtain ⟨s, hs, hsub⟩ := ih kept
        exact ⟨s, hs, hsub.cons _⟩
    · rw [if_neg hdup]
      by_cases h5 : 5 ≤ (kept ++ [w]).length
      · rw [if_pos h5]; exact ⟨[w], by simp, by simp⟩
      · rw [if_neg h5]
        obtain ⟨s, hs, hsub⟩ := ih (kept ++ [w])
        exact ⟨w :: s, by simp [hs], hsub.cons₂ _⟩

theorem dedupTop5_length (rest : List (List Char × ℚ × ℕ)) :
    ∀ kept, kept.length < 5 → (dedupTop5 kept rest).length ≤ 5 := by
  induction rest with
  | nil => intro kept h; simpa [dedupTop5] using h.le
  | cons p rest ih =>
    intro kept h
    obtain ⟨w, sc, f⟩ := p
    simp only [dedupTop5]
    by_cases hdup : kept.any (fun e => substrOf w e || substrOf e w)
    · rw [if_pos hdup]
      by_cases h5 : 5 ≤ kept.length
      · rw [if_pos h5]; omega
      · rw [if_neg h5]; exact ih kept h
    · rw [if_neg hdup]
      by_cases h5 : 5 ≤ (kept ++ [w]).length
      · rw [if_pos h5]; simp at h5 ⊢; omega
      · rw [if_neg h5]; exact ih (kept ++ [w]) (by simp at h5 ⊢; omega)

theorem dedupTop5_all {P : List Char → Prop}
    (rest : List (List Char × ℚ × ℕ)) :
    ∀ kept, (∀ w ∈ kept, P w) → (∀ p ∈ rest, P p.1) →
      ∀ w ∈ dedupTop5 kept rest, P w := by
  induction rest with
  | nil => intro kept hk _ w hw; exact hk w (by simpa [dedupTop5] using hw)
  | cons p rest ih =>
    intro kept hk hr w hw
    obtain ⟨x, sc, f⟩ := p
    simp only [dedupTop5] at hw
    have hx : P x := hr (x, sc, f) (by simp)
    have hr' : ∀ p ∈ rest, P p.1 := fun q hq => hr q (by simp [hq])
    by_cases hdup : kept.any (fun e => substrOf x e || substrOf e x)
    · rw [if_pos hdup] at hw
      by_cases h5 : 5 ≤ kept.length
      · rw [if_pos h5] at hw; exact hk w hw
      · rw [if_neg h5] at hw; exact ih kept hk hr' w hw
    · rw [if_neg hdup] at hw
      have hk' : ∀ w ∈ kept ++ [x], P w := by
        intro w hw'
        rcases List.mem_append.mp hw' with h | h
        · exact hk w h
        · simp at h; subst h; exact hx
      by_cases h5 : 5 ≤ (kept ++ [x]).length
      · rw [if_pos h5] at hw; exact hk' w hw
      · rw [if_neg h5] at hw; exact ih (kept ++ [x]) hk' hr' w hw

theorem dedupTop5_pairwise (rest : List (List Char × ℚ × ℕ)) :
    ∀ kept, List.Pairwise noContain kept →
      List.Pairwise noContain (dedupTop5 kept rest) := by
  induction rest with
  | nil => intro kept h; simpa [dedupTop5] using h
  | cons p rest ih =>
    intro kept hk
    obtain ⟨x, sc, f⟩ := p
    simp only [dedupTop5]
    by_cases hdup : kept.any (fun e => substrOf x e || substrOf e x)
    · rw [if_pos hdup]
      by_cases h5 : 5 ≤ kept.length
      · rw [if_pos h5]; exact hk
      · rw [if_neg h5]; exact ih kept hk
    · rw [if_neg hdup]
      have hnone : ∀ e ∈ kept, noContain e x := by
        intro e he
        have hfalse : kept.any (fun e => substrOf x e || substrOf e x) = false := by
          simpa using hdup
        have h := List.any_eq_false.mp hfalse e he
        simp only [Bool.or_eq_true, not_or, Bool.not_eq_true] at h
        exact ⟨h.2, h.1⟩
      have hk' : List.Pairwise noContain (kept ++ [x]) := by
        rw [List.pairwise_append]
        exact ⟨hk, by simp, fun a ha b hb => by simp at hb; subst hb; exact hnone a ha⟩
      by_cases h5 : 5 ≤ (kept ++ [x]).length
      · rw [if_pos h5]; exact hk'
      · rw [if_neg h5]; exact ih (kept ++ [x]) hk'

theorem kwSorted_pairwise (msgs : List Msg) :
    List.Pairwise (fun a b : List Char × ℚ × ℕ => b.2.1 ≤ a.2.1)
      (kwSorted msgs) := by
  haveI : IsTotal (List Char × ℚ × ℕ) (fun a b => b.2.1 ≤ a.2.1) :=
    ⟨fun a b => le_total b.2.1 a.2.1⟩
  haveI : IsTrans (List Char × ℚ × ℕ) (fun a b => b.2.1 ≤ a.2.1) :=
    ⟨fun _ _ _ hab hbc => le_trans hbc hab⟩
  exact List.sorted_insertionSort _ (kwScored msgs)

theorem kwSorted_mem (msgs : List Msg) (p : List Char × ℚ × ℕ)
    (hp : p ∈ kwSorted msgs) :
    2 ≤ p.2.2 ∧ (p.1, p.2.2) ∈ countOcc (kwOccurrences msgs) := by
  have hmem : p ∈ kwScored msgs :=
    (List.perm_insertionSort _ (kwScored msgs)).mem_iff.mp hp
  obtain ⟨q, hq, hfq⟩ := List.mem_filterMap.mp hmem
  by_cases h2 : 2 ≤ q.2
  · rw [if_pos h2] at hfq
    obtain rfl := Option.some.inj hfq
    exact ⟨h2, hq⟩
  · rw [if_neg h2] at hfq
    exact absurd hfq (by simp)

theorem dedupTop5_ne_nil (rest : List (List Char × ℚ × ℕ))
    (hrest : rest ≠ []) : dedupTop5 [] rest ≠ [] := by
  cases rest with
  | nil => exact absurd rfl hrest
  | cons p rest' =>
    obtain ⟨w, sc, f⟩ := p
    simp only [dedupTop5, List.any_nil, List.nil_append]
    rw [if_neg (by simp), if_neg (by simp)]
    obtain ⟨s, hs, _⟩ := dedupTop5_decomp rest' [w]
    simp [hs]

theorem topics_length (msgs : List Msg) :
    ((groupBySessionWindows 30 msgs).filterMap extractTopic).length =
      (groupBySessionWindows 30 msgs).length :=
  length_filterMap_of_isSome _ _ fun g hg =>
    extractTopic_isSome g (groupBySessionWindows_ne_nil 30 msgs g hg)

theorem analyze_length (msgs : List Msg) :
    (analyze msgs).length =
      min (max 5 (min 20 (msgs.length / 50)))
        ((groupBySessionWindows 30 msgs).filterMap extractTopic).length := by
  unfold analyze
  rw [List.length_take]
  congr 1
  exact (List.perm_insertionSort _ _).length_eq

end Batch

/-- **C1** (amended): in the Antigravity batch analyzer
(`TopicAnalyzer._group_by_session_windows`), a message whose timestamp
cannot be parsed is silently excluded from segmentation — it appears in no
SessionGroup and hence contributes to no Topic; the embedded function is
total, so no exception escapes.  The original claim fails for the
wechatReport variant, which appends such messages to the current group (see
the counterexample). -/
theorem c1_unparseable_dropped (W : ℤ) (msgs : List Msg) (m : Msg)
    (hm : fromisoformat m.timestamp = none) :
    ∀ g ∈ Batch.groupBySessionWindows W msgs, m ∉ g := by
  intro g hg hmem
  have hflat : m ∈ (Batch.groupBySessionWindows W msgs).flatten :=
    List.mem_flatten.mpr ⟨g, hg, hmem⟩
  rw [Batch.groupBySessionWindows_join] at hflat
  have := List.of_mem_filter hflat
  simp [Batch.parseable, hm] at this

/-- Witness for C1: `mBadR`'s timestamp does not parse, and the theorem
applied to the concrete input `[mGoodR, mBadR]` (whose only session is
`[mGoodR]`) shows it in no group. -/
theorem c1_witness :
    fromisoformat mBadR.timestamp = none ∧ mBadR ∉ ([mGoodR] : List Msg) :=
  ⟨by decide,
   c1_unparseable_dropped 30 [mGoodR, mBadR] mBadR (by decide) [mGoodR]
     (by decide)⟩

/-- **C1 counterexample**: in `wechatReport`'s
`ChatlogAnalyzer.group_messages_by_time`, a message with an unparseable
timestamp is **not** excluded: it is appended to the current SessionGroup
(`except: current_group.append(msg)`), contradicting the claim that such a
message appears in no SessionGroup. -/
theorem c1_counterexample :
    fromisoformat mBadR.timestamp = none ∧
      Report.group_messages_by_time [mGoodR, mBadR] = [[mGoodR, mBadR]] :=
  ⟨by decide, by decide⟩

/-- **C2** (amended): in the Antigravity batch analyzer, inside every
returned SessionGroup each pair of adjacent messages is at most
`windowMinutes` apart, and at every boundary between consecutive groups the
gap from the last message of the earlier group to the first message of the
later group is strictly more than `windowMinutes` — gaps being measured
from the previous message's time.  The original claim also covered
`ChatAnalyzer.group_messages_by_time` (`wechatBatch/skills`), where
`last_time` is not updated inside a group, so a boundary gap can be within
the window (see the counterexample). -/
theorem c2_gap_invariant (W : ℤ) (msgs : List Msg) :
    (∀ g ∈ Batch.groupBySessionWindows W msgs,
        List.Chain' (Batch.withinW W) g) ∧
      List.Chain' (Batch.boundary W) (Batch.groupBySessionWindows W msgs) :=
  Batch.groupBySessionWindows_chain W msgs

/-- Witness for C2: the theorem applied to two messages ten minutes apart,
which form one session. -/
theorem c2_witness : List.Chain' (Batch.withinW 30) [wA, wB] :=
  (c2_gap_invariant 30 [wA, wB]).1 [wA, wB] (by decide)

/-- **C2 counterexample**: `ChatAnalyzer.group_messages_by_time` measures
the gap from the group's first message, so with messages at 10:00, 10:25
and 10:50 and a 30-minute window it closes the group before 10:50 even
though 10:50 is only 25 minutes after its predecessor — a boundary gap that
is **not** strictly greater than `windowMinutes`. -/
theorem c2_counterexample :
    Skills.group_messages_by_time 0 30 [sk1, sk2, sk3] = [[sk1, sk2], [sk3]] ∧
      Skills.getMessageTime 0 sk3 - Skills.getMessageTime 0 sk2 ≤ 60 * 30 :=
  ⟨by decide, by decide⟩

/-- **C3** (amended): concatenating the messages of all SessionGroups
returned by the Antigravity segmenter, in order, reproduces the
timestamp-parseable subset of the input **in its original input order**,
each message exactly once.  The original claim's "sorted ascending by
timestamp" fails: `_group_by_session_windows` does not sort its input (see
the counterexample). -/
theorem c3_concat_eq_parseable (W : ℤ) (msgs : List Msg) :
    (Batch.groupBySessionWindows W msgs).flatten =
      msgs.filter Batch.parseable :=
  Batch.groupBySessionWindows_join W msgs

/-- **C3 counterexample**: two parseable messages given out of order stay
out of order in the concatenation of the returned groups, so the
concatenation is not the time-sorted parseable subset. -/
theorem c3_counterexample :
    Batch.parseable ooA = true ∧ Batch.parseable ooB = true ∧
      (Batch.groupBySessionWindows 30 [ooA, ooB]).flatten = [ooA, ooB] ∧
      Batch.pt ooB < Batch.pt ooA := by
  refine ⟨by decide, by decide, by decide, by decide⟩

/-- **C10**: every SessionGroup returned by any of the three embedded
segmenters (Antigravity batch, wechatBatch skills, wechatReport) is
non-empty, so downstream accesses to a group's first or last message never
hit an empty group. -/
theorem c10_groups_nonempty (W now interval : ℤ) (msgs : List Msg)
    (msgsB : List MsgB) :
    (∀ g ∈ Batch.groupBySessionWindows W msgs, g ≠ []) ∧
      (∀ g ∈ Skills.group_messages_by_time now interval msgsB, g ≠ []) ∧
      (∀ g ∈ Report.group_messages_by_time msgs, g ≠ []) :=
  ⟨Batch.groupBySessionWindows_ne_nil W msgs,
   Skills.group_messages_by_time_ne_nil now interval msgsB,
   Report.reportGrouping_ne_nil msgs⟩

/-- Witness for C10: the theorem applied to concrete groups of each
segmenter. -/
theorem c10_witness :
    ([mGoodR] : List Msg) ≠ [] ∧ ([sk1] : List MsgB) ≠ [] ∧
      ([mGoodR, mBadR] : List Msg) ≠ [] :=
  ⟨(c10_groups_nonempty 30 0 30 [mGoodR, mBadR] [sk1]).1 [mGoodR] (by decide),
   (c10_groups_nonempty 30 0 30 [mGoodR, mBadR] [sk1]).2.1 [sk1] (by decide),
   (c10_groups_nonempty 30 0 30 [mGoodR, mBadR] [sk1]).2.2 [mGoodR, mBadR]
     (by decide)⟩

/-- **C4** (amended): in the Antigravity scorer the topic score equals the
**uncapped** linear combination
`(count·0.4 + totalChars·0.1 + participantCount·5.0)` multiplied by 1.5
exactly when the participant count exceeds 2 (and by 1.0 otherwise); the
claim's capped terms `min(count/norm, cap)·weight` do not describe this
scorer for any choice of positive constants (see the counterexample), and
the wechatBatch scorer caps its terms but applies no 1.5 bonus at all. -/
theorem c4_score_formula (msgs : List Msg) (t : Batch.Topic)
    (h : Batch.extractTopic msgs = some t) :
    t.score =
      ((msgs.length : ℚ) * (2 / 5) + (Batch.totalLength msgs : ℚ) * (1 / 10) +
          (Batch.participantCount msgs : ℚ) * 5) *
        (if 2 < Batch.participantCount msgs then 3 / 2 else 1) := by
  cases msgs with
  | nil => simp [Batch.extractTopic] at h
  | cons m rest =>
    simp only [Batch.extractTopic] at h
    obtain rfl := Option.some.inj h
    simp [Batch.topicScore, Batch.diversityBonus]

/-- Witness for C4: the concrete single-message session `[mSolo]`
(1 message, 19 characters, 1 participant) has score
`(1·0.4 + 19·0.1 + 1·5)·1`. -/
theorem c4_witness :
    ∃ t, Batch.extractTopic [mSolo] = some t ∧
      t.score = ((1 : ℚ) * (2 / 5) + (19 : ℚ) * (1 / 10) + (1 : ℚ) * 5) * 1 := by
  rcases h : Batch.extractTopic [mSolo] with _ | t
  · exact absurd h (by simp [Batch.extractTopic])
  · refine ⟨t, rfl, ?_⟩
    rw [c4_score_formula [mSolo] t h]
    have h1 : ([mSolo] : List Msg).length = 1 := by decide
    have h2 : Batch.totalLength [mSolo] = 19 := by decide
    have h3 : Batch.participantCount [mSolo] = 1 := by decide
    rw [h1, h2, h3]
    norm_num

/-- **C4 counterexample**: the Antigravity score is unbounded in the
message count (it is `count·0.4 + … ` with no cap), while any score of the
claimed shape — capped terms with positive constants times a bounded bonus —
is bounded; so no choice of positive constants realizes the claim. -/
theorem c4_counterexample :
    ¬ ∃ d1 cA wA d2 cB wB d3 cC wC : ℚ,
        0 < d1 ∧ 0 < cA ∧ 0 < wA ∧ 0 < d2 ∧ 0 < cB ∧ 0 < wB ∧
          0 < d3 ∧ 0 < cC ∧ 0 < wC ∧
          ∀ msgs : List Msg, msgs ≠ [] →
            Batch.topicScore msgs =
              Batch.cappedScoreClaim d1 cA wA d2 cB wB d3 cC wC msgs.length
                (Batch.totalLength msgs) (Batch.participantCount msgs) := by
  rintro ⟨d1, cA, wA, d2, cB, wB, d3, cC, wC, hd1, hcA, hwA, hd2, hcB, hwB,
    hd3, hcC, hwC, hall⟩
  obtain ⟨k, hk⟩ := exists_nat_gt ((5 / 2) * (cA * wA + cB * wB + cC * wC))
  have hne : List.replicate (k + 1) mEmptyC4 ≠ [] := by simp
  have hlen : (List.replicate (k + 1) mEmptyC4).length = k + 1 := by simp
  have htl : Batch.totalLength (List.replicate (k + 1) mEmptyC4) = 0 := by
    simp [Batch.totalLength, List.map_replicate, mEmptyC4]
  have hpc : Batch.participantCount (List.replicate (k + 1) mEmptyC4) = 1 := by
    simp only [Batch.participantCount, List.map_replicate]
    rw [Batch.dedup_replicate_succ]
    rfl
  have hscore : Batch.topicScore (List.replicate (k + 1) mEmptyC4) =
      ((k : ℚ) + 1) * (2 / 5) + 5 := by
    rw [Batch.topicScore, htl, hpc, hlen, Batch.diversityBonus]
    norm_num
  have heq := hall (List.replicate (k + 1) mEmptyC4) hne
  rw [hscore, hlen, htl, hpc, Batch.cappedScoreClaim] at heq
  rw [if_neg (by norm_num)] at heq
  have hmin1 : min (((k + 1 : ℕ) : ℚ) / d1) cA * wA ≤ cA * wA :=
    mul_le_mul_of_nonneg_right (min_le_right _ _) hwA.le
  have hmin2 : min (((0 : ℕ) : ℚ) / d2) cB * wB ≤ cB * wB :=
    mul_le_mul_of_nonneg_right (min_le_right _ _) hwB.le
  have hmin3 : min (((1 : ℕ) : ℚ) / d3) cC * wC ≤ cC * wC :=
    mul_le_mul_of_nonneg_right (min_le_right _ _) hwC.le
  have hklarge : cA * wA + cB * wB + cC * wC < ((k : ℚ) + 1) * (2 / 5) + 5 := by
    have h25 : (0 : ℚ) < 2 / 5 := by norm_num
    have := mul_lt_mul_of_pos_left hk h25
    nlinarith
  nlinarith [heq, hmin1, hmin2, hmin3, hklarge]

/-- **C5** (amended): the Antigravity analyzer applies **no**
minimum-message threshold: every returned SessionGroup yields a Topic; in
particular a single parseable message yields exactly one SessionGroup of
size 1 and exactly one Topic (not zero).  The wechatBatch
`topic_analyzer.py` variant does skip windows with fewer than 3 messages,
but the claim's "2–3, configurable" threshold does not hold of the
Antigravity implementation the spec covers (see the counterexample). -/
theorem c5_topic_for_every_group (W : ℤ) (msgs : List Msg) :
    (∀ g ∈ Batch.groupBySessionWindows W msgs,
        (Batch.extractTopic g).isSome) ∧
      ∀ m : Msg, Batch.parseable m = true →
        Batch.groupBySessionWindows 30 [m] = [[m]] ∧
          (Batch.analyze [m]).length = 1 := by
  constructor
  · intro g hg
    exact Batch.extractTopic_isSome g
      (Batch.groupBySessionWindows_ne_nil W msgs g hg)
  · intro m hm
    simp only [Batch.parseable] at hm
    obtain ⟨t, ht⟩ := Option.isSome_iff_exists.mp hm
    have hgrp : Batch.groupBySessionWindows 30 [m] = [[m]] := by
      simp [Batch.groupBySessionWindows, ht, Batch.segGo]
    refine ⟨hgrp, ?_⟩
    rw [Batch.analyze_length, hgrp]
    simp [Batch.extractTopic]

/-- Witness for C5: at the concrete single message `mSolo`, the session
`[mSolo]` yields a Topic and `analyze` returns exactly one. -/
theorem c5_witness :
    (Batch.extractTopic [mSolo]).isSome ∧ (Batch.analyze [mSolo]).length = 1 :=
  ⟨(c5_topic_for_every_group 30 [mSolo]).1 [mSolo] (by decide),
   ((c5_topic_for_every_group 30 [mSolo]).2 mSolo (by decide)).2⟩

/-- **C5 counterexample**: a single-message input produces one SessionGroup
of size 1 **and one Topic**, not zero — the Antigravity analyzer has no
minimum-message threshold of 2–3. -/
theorem c5_counterexample :
    Batch.groupBySessionWindows 30 [mSolo] = [[mSolo]] ∧
      (Batch.analyze [mSolo]).length = 1 :=
  ⟨by decide, by decide⟩

/-- **C6**: with no explicit target count, `analyze` returns exactly
`min(clamp(total/50, 5, 20), #qualifying sessions)` topics — hence at most
the clamp and at most the number of qualifying SessionGroups (every
non-empty group qualifies, since `_extract_topic` has no threshold), and
600 total messages with at least 12 qualifying groups yield exactly 12. -/
theorem c6_dynamic_topic_count (msgs : List Msg) :
    (Batch.analyze msgs).length ≤ max 5 (min 20 (msgs.length / 50)) ∧
      (Batch.analyze msgs).length ≤
        ((Batch.groupBySessionWindows 30 msgs).filterMap
          Batch.extractTopic).length ∧
      (Batch.analyze msgs).length =
        min (max 5 (min 20 (msgs.length / 50)))
          ((Batch.groupBySessionWindows 30 msgs).filterMap
            Batch.extractTopic).length ∧
      (msgs.length = 600 →
        12 ≤ ((Batch.groupBySessionWindows 30 msgs).filterMap
          Batch.extractTopic).length →
        (Batch.analyze msgs).length = 12) := by
  have h := Batch.analyze_length msgs
  refine ⟨by rw [h]; exact min_le_left _ _, by rw [h]; exact min_le_right _ _,
    h, ?_⟩
  intro h600 h12
  rw [h, h600]
  omega

set_option maxRecDepth 4000 in
/-- Witness for C6: 588 unparseable messages plus 12 parseable ones an hour
apart — 600 total messages, 12 qualifying sessions, exactly 12 topics. -/
theorem c6_witness : (Batch.analyze msgs600).length = 12 :=
  (c6_dynamic_topic_count msgs600).2.2.2 (by decide) (by decide)

theorem kwScen_counts :
    Batch.countOcc (Batch.kwOccurrences kwScen) =
      [("项目".data, 5), ("项目管理".data, 3)] := by decide

theorem kwScen_scored :
    Batch.kwScored kwScen =
      [("项目".data, Batch.kwScore "项目".data 5, 5),
       ("项目管理".data, Batch.kwScore "项目管理".data 3, 3)] := by
  rw [Batch.kwScored, kwScen_counts]
  rfl

theorem kwScen_score_lt :
    ¬ Batch.kwScore "项目管理".data 3 ≤ Batch.kwScore "项目".data 5 := by
  have h4 : ("项目管理".data).length = 4 := by decide
  have h2 : ("项目".data).length = 2 := by decide
  rw [Batch.kwScore, Batch.kwScore, h4, h2]
  rw [min_def, min_def, min_def, min_def]
  norm_num

theorem kwScen_sorted :
    Batch.kwSorted kwScen =
      [("项目管理".data, Batch.kwScore "项目管理".data 3, 3),
       ("项目".data, Batch.kwScore "项目".data 5, 5)] := by
  rw [Batch.kwSorted, kwScen_scored]
  simp only [List.insertionSort, List.orderedInsert]
  rw [if_neg kwScen_score_lt]

theorem kwScen_eval : Batch.extractKeywords kwScen = ["项目管理".data] := by
  unfold Batch.extractKeywords
  rw [kwScen_sorted]
  rfl

/-- **C7**: keyword extraction keeps only candidates of frequency ≥ 2,
scores each as `min(len/4, 1.5)·min(freq/3, 2.0)`, sorts by score
descending, keeps a candidate only if it neither contains nor is contained
in an already kept one, returns at most five, and falls back to the fixed
set 讨论/交流/分享 when no candidate qualifies; of the candidates 项目
(freq 5) and 项目管理 (freq 3), only the higher-scored 项目管理 is kept. -/
theorem c7_keyword_pipeline (msgs : List Msg) :
    (Batch.extractKeywords msgs).length ≤ 5 ∧
      (Batch.kwScored msgs = [] →
        Batch.extractKeywords msgs =
          (["讨论", "交流", "分享"] : List String).map String.data) ∧
      (Batch.kwScored msgs ≠ [] →
        (∀ w ∈ Batch.extractKeywords msgs,
            ∃ f, 2 ≤ f ∧ (w, f) ∈ Batch.countOcc (Batch.kwOccurrences msgs)) ∧
          List.Pairwise Batch.noContain (Batch.extractKeywords msgs) ∧
          (Batch.extractKeywords msgs).Sublist
            ((Batch.kwSorted msgs).map (·.1))) ∧
      List.Pairwise (fun a b : List Char × ℚ × ℕ => b.2.1 ≤ a.2.1)
        (Batch.kwSorted msgs) ∧
      Batch.extractKeywords kwScen = ["项目管理".data] := by
  have hsorted := Batch.kwSorted_pairwise msgs
  refine ⟨?_, ?_, ?_, hsorted, kwScen_eval⟩
  · unfold Batch.extractKeywords
    by_cases hks : (Batch.dedupTop5 [] (Batch.kwSorted msgs)).isEmpty
    · rw [if_pos hks]; decide
    · rw [if_neg hks]
      exact Batch.dedupTop5_length (Batch.kwSorted msgs) [] (by norm_num)
  · intro hempty
    unfold Batch.extractKeywords
    have : Batch.kwSorted msgs = [] := by
      unfold Batch.kwSorted
      rw [hempty]
      rfl
    rw [this]
    rfl
  · intro hne
    have hsne : Batch.kwSorted msgs ≠ [] := by
      intro hcon
      apply hne
      have := (List.perm_insertionSort
        (fun a b : List Char × ℚ × ℕ => b.2.1 ≤ a.2.1) (Batch.kwScored msgs)).length_eq
      rw [Batch.kwSorted] at hcon
      rw [hcon] at this
      exact List.length_eq_zero.mp this.symm
    have hksne : Batch.dedupTop5 [] (Batch.kwSorted msgs) ≠ [] :=
      Batch.dedupTop5_ne_nil (Batch.kwSorted msgs) hsne
    have hval : Batch.extractKeywords msgs =
        Batch.dedupTop5 [] (Batch.kwSorted msgs) := by
      unfold Batch.extractKeywords
      rw [if_neg (by simpa using hksne)]
    refine ⟨?_, ?_, ?_⟩
    · rw [hval]
      exact Batch.dedupTop5_all (Batch.kwSorted msgs) [] (by simp)
        (fun p hp => by
          obtain ⟨h2, hmem⟩ := Batch.kwSorted_mem msgs p hp
          exact ⟨p.2.2, h2, hmem⟩)
    · rw [hval]
      exact Batch.dedupTop5_pairwise (Batch.kwSorted msgs) [] List.Pairwise.nil
    · rw [hval]
      obtain ⟨s, hs, hsub⟩ := Batch.dedupTop5_decomp (Batch.kwSorted msgs) []
      rw [hs]
      simpa using hsub

/-- Witness for C7: the 项目/项目管理 input qualifies (its scored candidate
list is non-empty) and every kept keyword has frequency ≥ 2 among the
counted candidates. -/
theorem c7_witness :
    Batch.kwScored kwScen ≠ [] ∧
      ∀ w ∈ Batch.extractKeywords kwScen,
        ∃ f, 2 ≤ f ∧ (w, f) ∈ Batch.countOcc (Batch.kwOccurrences kwScen) :=
  ⟨by rw [kwScen_scored]; simp,
   ((c7_keyword_pipeline kwScen).2.2.1 (by rw [kwScen_scored]; simp)).1⟩

/-- **C8**: a message classified as noise (bracket-only such as `[smile]`,
@mention-only, punctuation-only, digits-only, or acknowledgement words) is
excluded from the title candidates and from the summary candidates, yet
still counts toward the session's `message_count` and toward the total
content length used in scoring. -/
theorem c8_noise_messages (msgs : List Msg) (m : Msg) (hm : m ∈ msgs)
    (hn : Batch.isNoise (Batch.strip m.content.data) = true) :
    Batch.strip m.content.data ∉ Batch.titleSubstantial msgs ∧
      Batch.strip m.content.data ∉
        (Batch.summarySubstantial msgs).map Batch.SubEntry.content ∧
      msgs.length = (msgs.erase m).length + 1 ∧
      Batch.totalLength msgs =
        Batch.totalLength (msgs.erase m) + m.content.data.length ∧
      ∀ t, Batch.extractTopic msgs = some t →
        t.message_count = msgs.length ∧ t.score = Batch.topicScore msgs := by
  refine ⟨?_, ?_, ?_, ?_, ?_⟩
  · intro hmem
    simp only [Batch.titleSubstantial, List.mem_filterMap] at hmem
    obtain ⟨m', -, hsome⟩ := hmem
    split at hsome
    · next hcond =>
      have hc := Option.some.inj hsome
      simp only [Bool.and_eq_true, Bool.not_eq_true'] at hcond
      rw [hc, hn] at hcond
      exact absurd hcond.2 (by simp)
    · exact absurd hsome (by simp)
  · intro hmem
    obtain ⟨e, he, hce⟩ := List.mem_map.mp hmem
    simp only [Batch.summarySubstantial, List.mem_filterMap] at he
    obtain ⟨m', -, hsome⟩ := he
    split at hsome
    · next hcond =>
      have hc := Option.some.inj hsome
      rw [← hc] at hce
      have hstrip : Batch.strip m'.content.data = Batch.strip m.content.data := hce
      simp only [Bool.and_eq_true, Bool.not_eq_true'] at hcond
      rw [hstrip, hn] at hcond
      exact absurd hcond.2 (by simp)
    · exact absurd hsome (by simp)
  · rw [List.length_erase_of_mem hm]
    have := List.length_pos.mpr (List.ne_nil_of_mem hm)
    omega
  · have hp := List.perm_cons_erase hm
    unfold Batch.totalLength
    rw [(hp.map fun x => x.content.data.length).sum_eq]
    simp only [List.map_cons, List.sum_cons]
    omega
  · intro t ht
    cases msgs with
    | nil => exact absurd hm (by simp)
    | cons m0 rest =>
      simp only [Batch.extractTopic] at ht
      obtain rfl := Option.some.inj ht
      exact ⟨rfl, rfl⟩

/-- Witness for C8: the concrete message `"[smile]"` is noise; it is kept
out of the title candidates of the session `[mSolo, mSmile]` while still
counted by `message_count`. -/
theorem c8_witness :
    Batch.isNoise (Batch.strip mSmile.content.data) = true ∧
      Batch.strip mSmile.content.data ∉ Batch.titleSubstantial [mSolo, mSmile] ∧
      ([mSolo, mSmile] : List Msg).length =
        (([mSolo, mSmile] : List Msg).erase mSmile).length + 1 :=
  ⟨by decide,
   (c8_noise_messages [mSolo, mSmile] mSmile (by decide) (by decide)).1,
   (c8_noise_messages [mSolo, mSmile] mSmile (by decide) (by decide)).2.2.1⟩

/-- **C9** (amended): segmentation and scoring are pure functions of the
input **and the wall clock**: the wechatBatch-skills grouping is identical
across runs whenever every message's timestamp resolves, but
`_get_message_time` substitutes `datetime.now()` for an unresolvable
timestamp, so two runs at different times can return different groupings
(see the counterexample); the Antigravity pipeline never reads the clock. -/
theorem c9_clock_independent_when_resolvable (now1 now2 interval : ℤ)
    (msgs : List MsgB) (h : ∀ m ∈ msgs, Skills.resolvable m = true) :
    Skills.group_messages_by_time now1 interval msgs =
      Skills.group_messages_by_time now2 interval msgs :=
  Skills.group_messages_by_time_congr now1 now2 interval msgs h

/-- Witness for C9: on two fully parseable messages the grouping is the
same at clock 0 and at clock 99999. -/
theorem c9_witness :
    Skills.group_messages_by_time 0 30 [sk1, sk2] =
      Skills.group_messages_by_time 99999 30 [sk1, sk2] :=
  c9_clock_independent_when_resolvable 0 99999 30 [sk1, sk2] (by decide)

/-- **C9 counterexample**: with one message lacking a resolvable timestamp,
running the wechatBatch-skills grouping at clock `T` (the other message's
time) yields one group, while running it at clock `T + 41 min` yields two —
the same input, different outputs across runs. -/
theorem c9_counterexample :
    Skills.group_messages_by_time 63897760800 30 [skU, skP] ≠
      Skills.group_messages_by_time 63897763260 30 [skU, skP] := by decide
